import Mathlib

set_option maxRecDepth 4000

/-
Verification of the Repository Intelligence Engine of the free-claude
repository, a shallow embedding of src/src/services/gitIntegration.ts.
Strings are modelled as Lean String / List Char; the stdout of each
version-control subcommand and each generation-provider reply is passed
as an explicit input, since those are the only effects of the code.
-/

/-- Character class of the JavaScript regex class backslash-s restricted to
ASCII: space, tab, newline, carriage return, vertical tab, form feed. -/
def isWsp (c : Char) : Bool :=
  c == ' ' || c == '\t' || c == '\n' || c == '\r' || c == Char.ofNat 11 || c == Char.ofNat 12

/-- Character class of the JavaScript regex class backslash-w: ASCII letters,
digits and underscore. -/
def isWordChar (c : Char) : Bool :=
  ('a' ≤ c && c ≤ 'z') || ('A' ≤ c && c ≤ 'Z') || ('0' ≤ c && c ≤ '9') || c == '_'

/-- Decimal digit, the regex class backslash-d. -/
def isDigitChar (c : Char) : Bool := '0' ≤ c && c ≤ '9'

/-- Lowercase hexadecimal digit, as required by the blame header regex. -/
def isHexLower (c : Char) : Bool := isDigitChar c || ('a' ≤ c && c ≤ 'f')

/-- ASCII lowercasing, the fragment of String.prototype.toLowerCase the
compared literals exercise. -/
def toLowerAscii (c : Char) : Char :=
  if 'A' ≤ c && c ≤ 'Z' then Char.ofNat (c.toNat + 32) else c

/-- The single-quote character, written by code to keep the source free of
escaped quote literals. -/
def squote : Char := Char.ofNat 39

/-- The opening-brace character. -/
def lbrace : Char := Char.ofNat 123

/-- Prefix test on character lists, the semantics of String.startsWith and of
an anchored regex literal. -/
def lpre : List Char → List Char → Bool
  | [], _ => true
  | _ :: _, [] => false
  | p :: ps, c :: cs => p == c && lpre ps cs

/-- Membership of a character, the semantics of String.includes for a
one-character needle. -/
def hasChar (t : Char) : List Char → Bool
  | [] => false
  | c :: rest => c == t || hasChar t rest

/-- Substring test, the semantics of String.includes. -/
def containsSub (pat : List Char) : List Char → Bool
  | [] => pat.isEmpty
  | c :: rest => lpre pat (c :: rest) || containsSub pat rest

/-- Split on a separator character keeping empty pieces, the semantics of
String.split with a one-character separator. -/
def splitOnCh (sep : Char) : List Char → List (List Char)
  | [] => [[]]
  | c :: rest =>
    let r := splitOnCh sep rest
    if c == sep then [] :: r
    else
      match r with
      | h :: t => (c :: h) :: t
      | [] => [[c]]

/-- Trim leading and trailing whitespace, the semantics of
String.prototype.trim on ASCII input. -/
def trimLC (l : List Char) : List Char :=
  ((l.dropWhile isWsp).reverse.dropWhile isWsp).reverse

/-- String-level trim. -/
def jsTrim (s : String) : String := String.mk (trimLC s.data)

/-- Digits of a decimal literal folded into a Nat. -/
def natOfDigits (l : List Char) : Nat :=
  l.foldl (fun n c => n * 10 + (c.toNat - 48)) 0

/-- The numeric fragment of the JavaScript parseInt used by the code: skip
leading whitespace and read the decimal-digit prefix. The call sites feed it
well-formed numeric output; a digit-free input (NaN in JavaScript) is
modelled as 0. -/
def jsParseIntNat (l : List Char) : Nat :=
  natOfDigits ((l.dropWhile isWsp).takeWhile isDigitChar)

/-- Insertion-ordered association update, the semantics of a JavaScript
object or Map assignment: an existing key keeps its position, a new key is
appended. -/
def assocSet {α : Type} (k : String) (v : α) : List (String × α) → List (String × α)
  | [] => [(k, v)]
  | (k', v') :: rest => if k' = k then (k, v) :: rest else (k', v') :: assocSet k v rest

/-- Association lookup, the semantics of Map.get. -/
def assocGet {α : Type} (k : String) : List (String × α) → Option α
  | [] => none
  | (k', v) :: rest => if k' = k then some v else assocGet k rest

theorem strDataAppend (a b : String) : (a ++ b).data = a.data ++ b.data := by
  cases a; cases b; rfl

/-
getStatus, gitIntegration.ts lines 152-180: parse git status porcelain
output. For each nonempty line the two-character state field is line.slice(0, 2)
and the path is line.slice(3); a state containing A or M is pushed to staged,
then a state containing the two characters question-question to untracked,
then a state containing space-M to modified.
-/

structure GitStatus where
  staged : List String
  modified : List String
  untracked : List String
deriving DecidableEq

def statusStep (st : GitStatus) (line : List Char) : GitStatus :=
  if line = [] then st
  else
    let state := line.take 2
    let file := String.mk (line.drop 3)
    if hasChar 'A' state || hasChar 'M' state then
      { st with staged := st.staged ++ [file] }
    else if containsSub ['?', '?'] state then
      { st with untracked := st.untracked ++ [file] }
    else if containsSub [' ', 'M'] state then
      { st with modified := st.modified ++ [file] }
    else st

def getStatus (stdout : String) : GitStatus :=
  (splitOnCh '\n' stdout.data).foldl statusStep ⟨[], [], []⟩

theorem containsSpaceM_hasM (s : List Char) (h : containsSub [' ', 'M'] s = true) :
    hasChar 'M' s = true := by
  induction s with
  | nil => simp [containsSub, List.isEmpty] at h
  | cons c rest ih =>
    simp only [containsSub, Bool.or_eq_true] at h
    rcases h with h | h
    · simp only [lpre, Bool.and_eq_true] at h
      obtain ⟨-, h2⟩ := h
      cases rest with
      | nil => simp [lpre] at h2
      | cons d ds =>
        simp only [lpre, Bool.and_eq_true, beq_iff_eq] at h2
        simp [hasChar, h2.1.symm]
    · simp [hasChar, ih h]

theorem statusStep_modified (line : List Char) (st : GitStatus)
    (h : st.modified = []) : (statusStep st line).modified = [] := by
  unfold statusStep
  by_cases h0 : line = []
  · simp [h0, h]
  · simp only [h0, if_false]
    by_cases h1 : (hasChar 'A' (line.take 2) || hasChar 'M' (line.take 2)) = true
    · simp [h1, h]
    · simp only [h1, if_false]
      by_cases h2 : containsSub ['?', '?'] (line.take 2) = true
      · simp [h2, h]
      · simp only [h2, if_false]
        by_cases h3 : containsSub [' ', 'M'] (line.take 2) = true
        · exact absurd (by simp [containsSpaceM_hasM _ h3] : (hasChar 'A' (line.take 2) || hasChar 'M' (line.take 2)) = true) h1
        · simp [h3, h]

/-- C9: in every working-tree status the engine builds, the modified list is
empty: any porcelain state containing M (including the unstaged state
space-M) is caught by the staged branch, which is tested first, so the
modified branch is unreachable. -/
theorem gitC9_modifiedUnreachable (stdout : String) : (getStatus stdout).modified = [] := by
  unfold getStatus
  have hinv : ∀ (lines : List (List Char)) (st : GitStatus), st.modified = [] →
      (lines.foldl statusStep st).modified = [] := by
    intro lines
    induction lines with
    | nil => intro st h; exact h
    | cons l rest ih => intro st h; exact ih _ (statusStep_modified l st h)
  exact hinv _ _ rfl

/-
getGitDiff, gitIntegration.ts lines 526-578: scan the staged-diff stdout
line by line. A line starting with the ten characters of the file header
sentinel opens a new GitDiff record (pushing the previous one); otherwise,
with a record open, a line starting with a plus sign counts as an addition,
a line starting with a minus sign as a deletion, a line starting with an at
sign is skipped, and every other line is recorded as a modify change.
The lineNumber of each change is the running length of the change list, as
in the source.
-/

structure DiffChange where
  type : String
  content : String
  lineNumber : Nat
deriving DecidableEq

structure GitDiff where
  file : String
  additions : Nat
  deletions : Nat
  changes : List DiffChange
deriving DecidableEq

/-- The ten characters of the file-header sentinel tested by
line.startsWith in the source. -/
def diffGitPrefix : List Char := ['d', 'i', 'f', 'f', ' ', '-', '-', 'g', 'i', 't']

def diffStep (acc : List GitDiff × Option GitDiff) (line : List Char) :
    List GitDiff × Option GitDiff :=
  if lpre diffGitPrefix line then
    let flushed :=
      match acc.2 with
      | some d => acc.1 ++ [d]
      | none => acc.1
    let file := String.mk (((splitOnCh ' ' line).getD 2 []).drop 2)
    (flushed, some ⟨file, 0, 0, []⟩)
  else
    match acc.2 with
    | none => acc
    | some d =>
      if lpre ['+'] line then
        (acc.1, some ⟨d.file, d.additions + 1, d.deletions,
          d.changes ++ [⟨"add", String.mk (line.drop 1), d.changes.length + 1⟩]⟩)
      else if lpre ['-'] line then
        (acc.1, some ⟨d.file, d.additions, d.deletions + 1,
          d.changes ++ [⟨"delete", String.mk (line.drop 1), d.changes.length + 1⟩]⟩)
      else if lpre ['@'] line then
        (acc.1, some d)
      else
        (acc.1, some ⟨d.file, d.additions, d.deletions,
          d.changes ++ [⟨"modify", String.mk line, d.changes.length + 1⟩]⟩)

def getGitDiff (stdout : String) : List GitDiff :=
  if stdout = "" then []
  else
    let res := (splitOnCh '\n' stdout.data).foldl diffStep ([], none)
    match res.2 with
    | some d => res.1 ++ [d]
    | none => res.1

/-- A staged diff for one file with one added and one deleted body line,
preceded by the usual file-header lines. -/
def c1Diff : String := "diff --git a/f b/f\n--- a/f\n+++ b/f\n@@ -1 +1 @@\n+x\n-y"

/-- C1 counterexample: on a diff whose body adds one line and deletes one
line, the parser reports additions = 2 and deletions = 2, because the
file-header lines starting with three pluses and three minuses are counted
and appended as add and delete change records; the claimed count of 1 is
refuted. -/
theorem gitC1_counterexample :
    getGitDiff c1Diff =
      [⟨"f", 2, 2,
        [⟨"delete", "-- a/f", 1⟩, ⟨"add", "++ b/f", 2⟩,
         ⟨"add", "x", 3⟩, ⟨"delete", "y", 4⟩]⟩] ∧
    ¬ ((getGitDiff c1Diff).map GitDiff.additions = [1]) := by
  constructor
  · rfl
  · decide

/-- C1 amended: while a file record is open, every line beginning with a
plus increments additions and appends an add change — including the
three-plus file-header line, which the parser does not exclude — and
symmetrically every line beginning with a minus, including the three-minus
header, increments deletions and appends a delete change. -/
theorem gitC1_amended :
    (∀ (diffs : List GitDiff) (d : GitDiff) (line : List Char),
      lpre ['+'] line = true →
      diffStep (diffs, some d) line =
        (diffs, some ⟨d.file, d.additions + 1, d.deletions,
          d.changes ++ [⟨"add", String.mk (line.drop 1), d.changes.length + 1⟩]⟩)) ∧
    (∀ (diffs : List GitDiff) (d : GitDiff) (line : List Char),
      lpre ['-'] line = true →
      diffStep (diffs, some d) line =
        (diffs, some ⟨d.file, d.additions, d.deletions + 1,
          d.changes ++ [⟨"delete", String.mk (line.drop 1), d.changes.length + 1⟩]⟩)) := by
  constructor
  · intro diffs d line h
    cases line with
    | nil => simp [lpre] at h
    | cons c rest =>
      have hc : c = '+' := by
        simp only [lpre, Bool.and_eq_true, beq_iff_eq] at h
        exact h.1.symm
      subst hc
      simp [diffStep, diffGitPrefix, lpre]
  · intro diffs d line h
    cases line with
    | nil => simp [lpre] at h
    | cons c rest =>
      have hc : c = '-' := by
        simp only [lpre, Bool.and_eq_true, beq_iff_eq] at h
        exact h.1.symm
      subst hc
      simp [diffStep, diffGitPrefix, lpre]

/-- C1 witness: the three-plus header line itself, processed with a fresh
open record, is counted as an addition and appended as an add change. -/
theorem gitC1_witness :
    diffStep ([], some ⟨"f", 0, 0, []⟩) ("+++ b/f".data) =
      ([], some ⟨"f", 1, 0, [⟨"add", "++ b/f", 1⟩]⟩) := by
  rw [gitC1_amended.1 [] ⟨"f", 0, 0, []⟩ ("+++ b/f".data) (by decide)]
  rfl

/-
parseCommitMessage, gitIntegration.ts lines 497-524. The first line of the
provider response is matched against the anchored regex
caret (word-run) (optional: open-paren, scope-run of word chars or hyphen,
close-paren) colon space (one or more any-but-newline).
The word run is maximal-munch; shortening it cannot help, because the
character after a shorter run is still a word character and the pattern then
requires an open paren or a colon. If an open paren follows the word, the
scope run is maximal (a shorter run would leave a scope character where the
close paren is required), and when that bracketed group fails the empty
alternative of the optional group also fails, since the colon would have to
sit where the open paren is; so the deterministic decomposition below is the
exact match semantics. The dot class excludes the JavaScript line
terminators.
-/

def dotChar (c : Char) : Bool :=
  !(c == '\n' || c == '\r' || c == Char.ofNat 8232 || c == Char.ofNat 8233)

def dotOk : List Char → Bool
  | [] => false
  | c :: _ => dotChar c

def scopeChar (c : Char) : Bool := isWordChar c || c == '-'

def matchCommitHeader (l : List Char) : Option (String × Option String × String) :=
  let w := l.takeWhile isWordChar
  let r := l.dropWhile isWordChar
  if w.isEmpty then none
  else
    match r with
    | '(' :: r1 =>
      let s := r1.takeWhile scopeChar
      let r2 := r1.dropWhile scopeChar
      if s.isEmpty then none
      else
        match r2 with
        | ')' :: ':' :: ' ' :: rest =>
          if dotOk rest then some (String.mk w, some (String.mk s), String.mk (rest.takeWhile dotChar))
          else none
        | _ => none
    | ':' :: ' ' :: rest =>
      if dotOk rest then some (String.mk w, none, String.mk (rest.takeWhile dotChar))
      else none
    | _ => none

/-- The commit types enumerated by the CommitSuggestion interface,
gitIntegration.ts line 69. The TypeScript cast on the matched word performs
no runtime validation, so the runtime field is modelled as a plain String. -/
def declaredCommitTypes : List String :=
  ["feat", "fix", "docs", "style", "refactor", "test", "chore"]

structure CommitSuggestion where
  message : String
  type : String
  scope : Option String
  description : String
  breakingChanges : Bool
  relatedIssues : List String
deriving DecidableEq

/-- Scanner state machine for the global regex hash-digits: the first
argument holds the reversed digits collected since the last hash sign, or
none when no match is in progress. A hash followed by a non-digit is a
failed attempt and scanning resumes at the following character, exactly as
the regex engine advances after a failed match. -/
def findIssuesGo : Option (List Char) → List Char → List (List Char)
  | none, [] => []
  | some ds, [] => if ds.isEmpty then [] else [ds.reverse]
  | none, c :: r => if c == '#' then findIssuesGo (some []) r else findIssuesGo none r
  | some ds, c :: r =>
    if isDigitChar c then findIssuesGo (some (c :: ds)) r
    else
      if ds.isEmpty then
        (if c == '#' then findIssuesGo (some []) r else findIssuesGo none r)
      else
        ds.reverse :: (if c == '#' then findIssuesGo (some []) r else findIssuesGo none r)

/-- All non-overlapping matches of the global regex hash-digits, each
reported without its hash sign as in issue.slice(1). -/
def findIssues (l : List Char) : List (List Char) := findIssuesGo none l

def firstLine (response : String) : List Char :=
  (splitOnCh '\n' response.data).headD []

def restJoined (response : String) : List Char :=
  List.intercalate ['\n'] ((splitOnCh '\n' response.data).drop 1)

def parseCommitMessage (response : String) : CommitSuggestion :=
  match matchCommitHeader (firstLine response) with
  | none =>
    { message := String.mk (firstLine response), type := "chore", scope := none,
      description := String.mk (restJoined response), breakingChanges := false,
      relatedIssues := [] }
  | some (ty, sc, _) =>
    { message := String.mk (firstLine response), type := ty, scope := sc,
      description := String.mk (restJoined response),
      breakingChanges := containsSub "breaking change".data ((restJoined response).map toLowerAscii),
      relatedIssues := (findIssues (restJoined response)).map String.mk }

/-- C6: the commit-message parser round-trips the well-formed sample input,
and every response whose first line does not match the header pattern falls
back to type chore with the first line as the message. -/
theorem gitC6_roundtrip :
    parseCommitMessage "feat(auth): add login\n\nBreaking change: renamed token\n#42" =
      ⟨"feat(auth): add login", "feat", some "auth",
       "\nBreaking change: renamed token\n#42", true, ["42"]⟩ ∧
    ∀ (response : String), matchCommitHeader (firstLine response) = none →
      (parseCommitMessage response).type = "chore" ∧
      (parseCommitMessage response).message = String.mk (firstLine response) := by
  constructor
  · rfl
  · intro response h
    simp [parseCommitMessage, h]

/-- C6 witness: a first line without the colon-space separator falls back to
type chore carrying the raw first line. -/
theorem gitC6_witness :
    (parseCommitMessage "hello world").type = "chore" ∧
    (parseCommitMessage "hello world").message = String.mk (firstLine "hello world") :=
  gitC6_roundtrip.2 "hello world" (by decide)

/-- C10: whenever the first line matches word(scope): subject for any word,
the parser returns that word verbatim as the type, with no check against
the declared enumeration; the sample input with the undeclared word foo
yields type foo. -/
theorem gitC10_unvalidatedType :
    ((parseCommitMessage "foo: bar").type = "foo" ∧
     ¬ ("foo" ∈ declaredCommitTypes)) ∧
    ∀ (response ty : String) (sc : Option String) (rest : String),
      matchCommitHeader (firstLine response) = some (ty, sc, rest) →
      (parseCommitMessage response).type = ty := by
  constructor
  · constructor
    · rfl
    · decide
  · intro response ty sc rest h
    simp [parseCommitMessage, h]

/-- C10 witness: the undeclared word foo is returned verbatim as the type. -/
theorem gitC10_witness : (parseCommitMessage "foo: bar").type = "foo" :=
  gitC10_unvalidatedType.2 "foo: bar" "foo" none "bar" (by decide)

/-
parsePRDescription, gitIntegration.ts lines 736-780. The first line of the
response is the title; each later line either switches the active bucket
when its lowercased form starts with the reviewers or labels prefix (the
remainder of that line is discarded by the continue), or, when nonblank, is
trimmed and pushed to the active bucket. Reviewer tokens are joined with
spaces, split on runs of commas and whitespace, each has its first at-sign
removed by String.replace, and empty tokens are dropped; label tokens go
through the same split but have no replace step.
-/

structure PRDesc where
  title : String
  body : String
  reviewers : List String
  labels : List String
deriving DecidableEq

inductive PRSection
  | desc
  | rev
  | lab
deriving DecidableEq

def prStep (st : (List (List Char) × List (List Char) × List (List Char)) × PRSection)
    (line : List Char) :
    (List (List Char) × List (List Char) × List (List Char)) × PRSection :=
  let low := line.map toLowerAscii
  if lpre "reviewers:".data low then (st.1, PRSection.rev)
  else if lpre "labels:".data low then (st.1, PRSection.lab)
  else if trimLC line ≠ [] then
    match st.2 with
    | PRSection.desc => ((st.1.1 ++ [trimLC line], st.1.2.1, st.1.2.2), st.2)
    | PRSection.rev => ((st.1.1, st.1.2.1 ++ [trimLC line], st.1.2.2), st.2)
    | PRSection.lab => ((st.1.1, st.1.2.1, st.1.2.2 ++ [trimLC line]), st.2)
  else st

/-- True when the character is a comma or whitespace, the separator class of
the token split. -/
def isSepCh (c : Char) : Bool := c == ',' || isWsp c

/-- Split on runs of separator characters, keeping the empty boundary pieces
the JavaScript split produces; the second argument is the current token in
reverse, the third records whether the previous character was a separator
whose run is still being consumed. -/
def splitSepsGo : List Char → List Char → Bool → List (List Char)
  | [], cur, _ => [cur.reverse]
  | c :: r, cur, inSep =>
    if isSepCh c then
      if inSep then splitSepsGo r [] true
      else cur.reverse :: splitSepsGo r [] true
    else splitSepsGo r (c :: cur) false

def jsSplitSeps (l : List Char) : List (List Char) := splitSepsGo l [] false

/-- Remove the first occurrence of the at-sign, the semantics of
String.replace with a plain-string pattern. -/
def replaceFirstAt : List Char → List Char
  | [] => []
  | c :: r => if c == '@' then r else c :: replaceFirstAt r

def parsePRDescription (response : String) : PRDesc :=
  let lines := splitOnCh '\n' response.data
  let title := lines.headD []
  let st := (lines.drop 1).foldl prStep (([], [], []), PRSection.desc)
  ⟨String.mk (trimLC title),
   String.mk (List.intercalate ['\n'] st.1.1),
   ((jsSplitSeps (List.intercalate [' '] st.1.2.1)).map replaceFirstAt).filterMap
     (fun t => if t = [] then none else some (String.mk t)),
   (jsSplitSeps (List.intercalate [' '] st.1.2.2)).filterMap
     (fun t => if t = [] then none else some (String.mk t))⟩

/-- C8 counterexample: a labels-section token beginning with an at-sign is
returned with the at-sign retained, not stripped. -/
theorem gitC8_counterexample :
    (parsePRDescription "T\nlabels:\n@bug").labels = ["@bug"] ∧
    ¬ ("bug" ∈ (parsePRDescription "T\nlabels:\n@bug").labels) := by
  constructor
  · rfl
  · decide

/-- C8 amended: reviewer and label tokens are both split on commas and
whitespace, but only reviewer tokens have their first at-sign removed; the
labels pipeline has no replace step, so for every generated text, every
nonempty token of the split labels section — in particular one beginning
with an at-sign, which keeps it — appears verbatim in the returned labels;
a sample text shows reviewers stripped and labels untouched. -/
theorem gitC8_amended :
    (∀ (response : String) (tok : List Char),
      tok ∈ jsSplitSeps (List.intercalate [' ']
        ((((splitOnCh '\n' response.data).drop 1).foldl prStep
            (([], [], []), PRSection.desc)).1.2.2)) →
      tok ≠ [] →
      String.mk tok ∈ (parsePRDescription response).labels) ∧
    parsePRDescription "T\nreviewers:\n@alice, bob\nlabels:\n@bug enhancement" =
      ⟨"T", "", ["alice", "bob"], ["@bug", "enhancement"]⟩ := by
  constructor
  · intro response tok h1 h2
    have hne : (if tok = [] then none else some (String.mk tok)) = some (String.mk tok) :=
      if_neg h2
    exact List.mem_filterMap.mpr ⟨tok, h1, hne⟩
  · rfl

/-- C8 witness: the at-prefixed labels-section token of the counterexample
text is returned with its at-sign retained. -/
theorem gitC8_witness :
    String.mk "@bug".data ∈ (parsePRDescription "T\nlabels:\n@bug").labels :=
  gitC8_amended.1 "T\nlabels:\n@bug" ("@bug".data) (by decide) (by decide)

/-
parseCodeReview, gitIntegration.ts lines 628-651. Each response line is
matched against the unanchored regex
bracket severity bracket, optional whitespace, bracket category bracket,
optional whitespace, one-or-more non-colon characters, colon, digits, colon,
optional whitespace, lazy one-or-more message characters, an optional
whitespace-then-suggestion-bracket group, end of line.
The severity and category literal alternatives are pairwise non-prefixing,
so at a given position at most one applies. The whitespace runs and the
non-colon and digit runs border characters outside their own class, so the
greedy runs below are the exact match semantics; only the captured file text
can shift whitespace between the star and the following class, and the
caller trims it, which makes the distribution irrelevant. The lazy message
group is resolved by taking the shortest nonempty prefix after which either
the suggestion group plus end of line, or end of line alone, matches.
-/

structure CodeReviewComment where
  file : String
  line : Nat
  message : String
  severity : String
  category : String
  suggestion : Option String
deriving DecidableEq

structure ReviewGroups where
  sev : List Char
  cat : List Char
  file : List Char
  lineNum : Nat
  msg : List Char
  sugg : Option (List Char)

def sevAlts : List (List Char) := ["info".data, "warning".data, "error".data]

def catAlts : List (List Char) :=
  ["security".data, "performance".data, "maintainability".data, "bug".data, "style".data]

/-- First alternative that is a literal prefix, returning it and the rest. -/
def tryLit (alts : List (List Char)) (l : List Char) : Option (List Char × List Char) :=
  match alts with
  | [] => none
  | a :: rest => if lpre a l then some (a, l.drop a.length) else tryLit rest l

/-- The optional suggestion tail: optional whitespace, the literal
open-bracket suggestion colon, optional whitespace, a nonempty greedy
capture, a closing bracket that must be the last character of the line. -/
def trySuggestion (rest : List Char) : Option (List Char) :=
  let r := rest.dropWhile isWsp
  if lpre "[suggestion:".data r then
    let body := r.drop 12
    match body.reverse with
    | ']' :: revPre =>
      if revPre.isEmpty then none
      else
        let pre := revPre.reverse
        let w := pre.takeWhile isWsp
        if w.length = pre.length then some (pre.drop (pre.length - 1))
        else some (pre.drop w.length)
    | _ => none
  else none

/-- The lazy message group: consume at least one character, and after each
character first try the suggestion group, then end of line. -/
def lazyMsg : List Char → List Char → Option (List Char × Option (List Char))
  | [], accRev => if accRev.isEmpty then none else some (accRev.reverse, none)
  | c :: rest, accRev =>
    let acc2 := c :: accRev
    match trySuggestion rest with
    | some sugg => some (acc2.reverse, some sugg)
    | none => if rest.isEmpty then some (acc2.reverse, none) else lazyMsg rest acc2

def matchReviewAt (l : List Char) : Option ReviewGroups :=
  match l with
  | '[' :: r1 =>
    match tryLit sevAlts r1 with
    | some (sev, r2) =>
      match r2 with
      | ']' :: r3 =>
        match (r3.dropWhile isWsp) with
        | '[' :: r5 =>
          match tryLit catAlts r5 with
          | some (cat, r6) =>
            match r6 with
            | ']' :: r7 =>
              let fileRun := r7.takeWhile (fun c => !(c == ':'))
              let r8 := r7.dropWhile (fun c => !(c == ':'))
              if fileRun.isEmpty then none
              else
                match r8 with
                | ':' :: r9 =>
                  let digits := r9.takeWhile isDigitChar
                  let r10 := r9.dropWhile isDigitChar
                  if digits.isEmpty then none
                  else
                    match r10 with
                    | ':' :: r11 =>
                      match lazyMsg (r11.dropWhile isWsp) [] with
                      | some (msg, sugg) =>
                        some ⟨sev, cat, fileRun, natOfDigits digits, msg, sugg⟩
                      | none =>
                        match r11.reverse with
                        | c :: _ => if r11.isEmpty then none else some ⟨sev, cat, fileRun, natOfDigits digits, [c], none⟩
                        | [] => none
                    | _ => none
                | _ => none
            | _ => none
          | none => none
        | _ => none
      | _ => none
    | none => none
  | _ => none

/-- Leftmost match of the review-comment regex within a line. -/
def scanReviewLine : List Char → Option ReviewGroups
  | [] => none
  | c :: rest =>
    match matchReviewAt (c :: rest) with
    | some g => some g
    | none => scanReviewLine rest

def parseCodeReview (review : String) : List CodeReviewComment :=
  (splitOnCh '\n' review.data).foldl
    (fun acc line =>
      match scanReviewLine line with
      | some g =>
        acc ++ [⟨String.mk (trimLC g.file), g.lineNum, String.mk (trimLC g.msg),
                 String.mk g.sev, String.mk g.cat, g.sugg.map (fun s => String.mk (trimLC s))⟩]
      | none => acc)
    []

/-
getCommitsSinceBase, gitIntegration.ts lines 703-734: the log output is
consumed four lines at a time (hash, message, author, date); a trailing
group of fewer than four lines is dropped by the loop guard.
-/

structure CommitInfo where
  hash : String
  message : String
  author : String
  date : String
deriving DecidableEq

def chunkCommits : List (List Char) → List CommitInfo
  | h :: m :: a :: d :: rest =>
    ⟨String.mk h, String.mk m, String.mk a, String.mk d⟩ :: chunkCommits rest
  | _ => []

def getCommitsSinceBase (stdout : String) : List CommitInfo :=
  chunkCommits (splitOnCh '\n' stdout.data)

/-
The three diff-consuming public operations, gitIntegration.ts lines 458-495
(suggestCommitMessage), 580-626 (reviewChanges) and 653-701
(generatePRDescription). Each is modelled over the staged-diff stdout and
the generation-provider reply; the repository context fetched first and the
prompt built from it only feed the provider call, whose reply is already an
input here. The Bool component records whether claudeAPI.chat was invoked
during the operation. generatePRDescription has no empty-diff guard of its
own; it awaits this.reviewChanges() before its own provider call, so an
empty diff surfaces as the review error and no chat call happens.
-/

def suggestCommitMessage (diffOut : String) (providerResponse : String) :
    Except String CommitSuggestion × Bool :=
  let diff := getGitDiff diffOut
  if diff.isEmpty then (Except.error "No changes to commit", false)
  else (Except.ok (parseCommitMessage providerResponse), true)

def reviewChanges (diffOut : String) (providerResponse : String) :
    Except String (List CodeReviewComment) × Bool :=
  let diff := getGitDiff diffOut
  if diff.isEmpty then (Except.error "No changes to review", false)
  else (Except.ok (parseCodeReview providerResponse), true)

def generatePRDescription (diffOut commitsOut reviewResponse prResponse : String) :
    Except String PRDesc × Bool :=
  let _diff := getGitDiff diffOut
  let _commits := getCommitsSinceBase commitsOut
  match reviewChanges diffOut reviewResponse with
  | (Except.error e, called) => (Except.error e, called)
  | (Except.ok _, _) => (Except.ok (parsePRDescription prResponse), true)

/-- C5: on empty diff text the Diff Parser returns the empty list, and each
of the three diff-consuming operations fails with its no-changes error
while the generation provider is never invoked (generatePRDescription fails
through the reviewChanges call it awaits before its own provider call). -/
theorem gitC5_emptyDiffFailsFast :
    getGitDiff "" = [] ∧
    (∀ resp : String,
      suggestCommitMessage "" resp = (Except.error "No changes to commit", false)) ∧
    (∀ resp : String,
      reviewChanges "" resp = (Except.error "No changes to review", false)) ∧
    (∀ commitsOut reviewResp prResp : String,
      generatePRDescription "" commitsOut reviewResp prResp =
        (Except.error "No changes to review", false)) :=
  ⟨rfl, fun _ => rfl, fun _ => rfl, fun _ _ _ => rfl⟩

/-
getGitBlame, gitIntegration.ts lines 841-886: line-porcelain output is
scanned; an author line overwrites the single author field, an author-time
line sets the date (the source converts the epoch value to an ISO string
via the Date library; the model keeps the millisecond value passed to the
Date constructor), a summary line overwrites the subject, a tab-prefixed
line closes the pending line record using its content, and a line starting
with forty lowercase hex digits, a space and a line number overwrites the
hash and opens a new pending line record. The GitBlame record holds one
author: each header overwrites the previous value.
-/

structure BlameLine where
  number : Nat
  content : String
deriving DecidableEq

structure GitBlame where
  hash : String
  author : String
  date : Nat
  message : String
  lines : List BlameLine
deriving DecidableEq

def parseBlameHeader (l : List Char) : Option (List Char × Nat) :=
  let h := l.take 40
  let rest := l.drop 40
  if h.length = 40 ∧ h.all isHexLower then
    match rest with
    | ' ' :: r =>
      let d := r.takeWhile isDigitChar
      if d.isEmpty then none else some (h, natOfDigits d)
    | _ => none
  else none

def blameStep (st : GitBlame × Option (Nat × List Char)) (line : List Char) :
    GitBlame × Option (Nat × List Char) :=
  let blame := st.1
  if lpre "author ".data line then
    ({ blame with author := String.mk (line.drop 7) }, st.2)
  else if lpre "author-time ".data line then
    ({ blame with date := jsParseIntNat (line.drop 12) * 1000 }, st.2)
  else if lpre "summary ".data line then
    ({ blame with message := String.mk (line.drop 8) }, st.2)
  else if lpre ['\t'] line then
    match st.2 with
    | some cl =>
      ({ blame with lines := blame.lines ++ [⟨cl.1, String.mk (line.drop 1)⟩] }, none)
    | none => (blame, none)
  else
    match parseBlameHeader line with
    | some hn => ({ blame with hash := String.mk hn.1 }, some (hn.2, []))
    | none => st

def getGitBlame (stdout : String) : GitBlame :=
  ((splitOnCh '\n' stdout.data).foldl blameStep (⟨"", "", 0, "", []⟩, none)).1

/-
suggestCodeOwners, gitIntegration.ts lines 782-839: for each file the inner
loop folds over blame.lines, but reads only blame.author — the single
author field left by the parse — incrementing that one key of the Map.
-/

def ownershipCounts (blame : GitBlame) : List (String × Nat) :=
  blame.lines.foldl
    (fun m _ => assocSet blame.author ((assocGet blame.author m).getD 0 + 1) m)
    []

/-- Line-porcelain output attributing one line to Alice and one to Bob. -/
def c7Blame : String :=
  "aaaaaaaaaaaaaaaaaaaaaaaaaaaaaaaaaaaaaaaa 1 1\nauthor Alice\nauthor-time 100\nsummary first\n\tlineA\nbbbbbbbbbbbbbbbbbbbbbbbbbbbbbbbbbbbbbbbb 2 2\nauthor Bob\nauthor-time 200\nsummary second\n\tlineB"

/-- C7 counterexample: on attribution output naming two authors for two
lines, the aggregation yields a single entry crediting the last author with
both lines, not two entries with one line each. -/
theorem gitC7_counterexample :
    ownershipCounts (getGitBlame c7Blame) = [("Bob", 2)] ∧
    ¬ (("Alice", 1) ∈ ownershipCounts (getGitBlame c7Blame)) := by
  constructor
  · rfl
  · decide

theorem ownershipCounts_iter (a : String) (ls : List BlameLine) (n : Nat) :
    ls.foldl (fun m _ => assocSet a ((assocGet a m).getD 0 + 1) m) [(a, n)] =
      [(a, n + ls.length)] := by
  induction ls generalizing n with
  | nil => rfl
  | cons x xs ih =>
    simp only [List.foldl_cons, List.length_cons]
    have h1 : assocSet a ((assocGet a [(a, n)]).getD 0 + 1) [(a, n)] = [(a, n + 1)] := by
      simp [assocGet, assocSet]
    rw [h1, ih (n + 1)]
    have h2 : n + 1 + xs.length = n + (xs.length + 1) := by omega
    rw [h2]

/-- C7 amended: the aggregation credits every parsed line of a file to the
single author field left by the blame parse (the last author header
encountered), so it produces at most one entry, carrying the total line
count; a file touched by two distinct authors still yields exactly one
entry. -/
theorem gitC7_amended (blame : GitBlame) :
    ownershipCounts blame =
      cond blame.lines.isEmpty [] [(blame.author, blame.lines.length)] := by
  unfold ownershipCounts
  cases hl : blame.lines with
  | nil => rfl
  | cons x xs =>
    simp only [List.foldl_cons]
    have h1 : assocSet blame.author
        ((assocGet blame.author ([] : List (String × Nat))).getD 0 + 1) [] =
        [(blame.author, 1)] := by
      simp [assocGet, assocSet]
    rw [h1, ownershipCounts_iter blame.author xs 1]
    have h2 : 1 + xs.length = (x :: xs).length := by
      simp [Nat.add_comm]
    rw [h2]
    rfl

/-
analyzeSecurity, gitIntegration.ts lines 377-423. Three secret regexes are
tested per file; the first hit pushes the file path to secrets once. Note
that each secret regex opens with the inline group open-paren question i
close-paren, which JavaScript rejects as an invalid group, so the literal
cannot even be evaluated at module load; the matchers below read that group
charitably as case-insensitivity, which is the only reading under which the
scan runs at all. The first pattern requires the equals sign to follow the
key name directly, with at most one underscore or hyphen between — the
whitespace class appears only after the equals sign.
-/

def isQuote (c : Char) : Bool := c == '"' || c == squote

/-- Case-insensitive literal prefix; the pattern argument is lowercase. -/
def ciPrefix : List Char → List Char → Bool
  | [], _ => true
  | _ :: _, [] => false
  | p :: ps, c :: cs => toLowerAscii c == p && ciPrefix ps cs

/-- The keyword alternation of the first secret pattern with its internal
optional underscore-or-hyphen expanded. -/
def p1Alts : List (List Char) :=
  ["apikey".data, "api_key".data, "api-key".data,
   "apisecret".data, "api_secret".data, "api-secret".data,
   "accesskey".data, "access_key".data, "access-key".data,
   "accesssecret".data, "access_secret".data, "access-secret".data,
   "password".data, "secret".data]

/-- After the equals sign: optional whitespace, an opening quote of either
kind, any run of non-quote characters, and a closing quote of either kind,
which exists exactly when some later quote character occurs. -/
def p1Quote : List Char → Bool
  | [] => false
  | c :: rest => isQuote c && !(rest.dropWhile (fun d => !(isQuote d))).isEmpty

def p1Eq : List Char → Bool
  | [] => false
  | c :: rest => if c == '=' then p1Quote (rest.dropWhile isWsp) else false

/-- The tail after a keyword: an optional single underscore or hyphen, then
the equals sign and the quoted value. -/
def p1Tail (l : List Char) : Bool :=
  p1Eq l ||
    (match l with
     | c :: rest => (c == '_' || c == '-') && p1Eq rest
     | [] => false)

def p1At (l : List Char) : Bool :=
  p1Alts.any (fun k => ciPrefix k l && p1Tail (l.drop k.length))

def secretP1 : List Char → Bool
  | [] => false
  | c :: rest => p1At (c :: rest) || secretP1 rest

/-- One or more whitespace characters, returning the rest after the run. -/
def wsPlus (l : List Char) : Option (List Char) :=
  match l with
  | c :: rest => if isWsp c then some (rest.dropWhile isWsp) else none
  | [] => none

def p2Alg (l : List Char) : Option (List Char) :=
  if ciPrefix "rsa".data l then some (l.drop 3)
  else if ciPrefix "dsa".data l then some (l.drop 3)
  else if ciPrefix "ec".data l then some (l.drop 2)
  else if ciPrefix "pgp".data l then some (l.drop 3)
  else none

def p2At (l : List Char) : Bool :=
  if ciPrefix "begin".data l then
    match wsPlus (l.drop 5) with
    | some r1 =>
      match p2Alg r1 with
      | some r2 =>
        match wsPlus r2 with
        | some r3 =>
          if ciPrefix "private".data r3 then
            match wsPlus (r3.drop 7) with
            | some r4 => ciPrefix "key".data r4
            | none => false
          else false
        | none => false
      | none => false
    | none => false
  else false

def secretP2 : List Char → Bool
  | [] => false
  | c :: rest => p2At (c :: rest) || secretP2 rest

/-- The value class of the AWS pattern: letters, digits, slash, plus,
equals. -/
def isAwsCls (c : Char) : Bool :=
  ('a' ≤ c && c ≤ 'z') || ('A' ≤ c && c ≤ 'Z') || ('0' ≤ c && c ≤ '9') ||
    c == '/' || c == '+' || c == '='

/-- Both continuations of an optional underscore-or-hyphen. -/
def sepOpts (l : List Char) : List (List Char) :=
  match l with
  | c :: rest => if c == '_' || c == '-' then [l, rest] else [l]
  | [] => [[]]

def p3Quote : List Char → Bool
  | [] => false
  | c :: rest =>
    if isQuote c then
      if 20 ≤ (rest.takeWhile isAwsCls).length then
        match rest.dropWhile isAwsCls with
        | q :: _ => isQuote q
        | [] => false
      else false
    else false

def p3AfterId (l : List Char) : Bool :=
  match l.dropWhile isWsp with
  | '=' :: r => p3Quote (r.dropWhile isWsp)
  | _ => false

def p3At (l : List Char) : Bool :=
  if ciPrefix "aws".data l then
    (sepOpts (l.drop 3)).any (fun r1 =>
      (r1 :: (if ciPrefix "access".data r1 then sepOpts (r1.drop 6) else [])).any (fun r2 =>
        if ciPrefix "key".data r2 then
          (sepOpts (r2.drop 3)).any (fun r4 =>
            if ciPrefix "id".data r4 then p3AfterId (r4.drop 2) else false)
        else false))
  else false

def secretP3 : List Char → Bool
  | [] => false
  | c :: rest => p3At (c :: rest) || secretP3 rest

def fileHasSecret (content : String) : Bool :=
  secretP1 content.data || secretP2 content.data || secretP3 content.data

/-- A character of the vulnerability patterns to the right of the opening
call paren: the dot class, any character but a line terminator. -/
def seekCharSameLine (t : Char) : List Char → Bool
  | [] => false
  | c :: rest =>
    if c == t then true
    else if c == '\n' || c == '\r' || c == Char.ofNat 8232 || c == Char.ofNat 8233 then false
    else seekCharSameLine t rest

/-- A literal keyword followed, on the same line, by the closing character:
the shape of the eval and exec call patterns. -/
def matchCallPat (kw : List Char) : List Char → Bool
  | [] => false
  | c :: rest =>
    (lpre kw (c :: rest) && seekCharSameLine ')' ((c :: rest).drop kw.length)) ||
      matchCallPat kw rest

/-- A keyword, optional whitespace, then a required closing character: the
shape of the innerHTML assignment pattern and of the complexity factors. -/
def afterKw (cl : Char) : List Char → Bool
  | [] => false
  | c :: rest => if c == cl then true else if isWsp c then afterKw cl rest else false

def matchKwClose (kw : List Char) (cl : Char) : List Char → Bool
  | [] => false
  | c :: rest =>
    (lpre kw (c :: rest) && afterKw cl ((c :: rest).drop kw.length)) ||
      matchKwClose kw cl rest

structure Vulnerability where
  file : String
  type : String
  severity : String
  description : String
deriving DecidableEq

def vulnPatterns : List ((List Char → Bool) × String × String) :=
  [(matchCallPat "eval(".data, "code-injection", "high"),
   (matchKwClose "innerHTML".data '=', "xss", "medium"),
   (matchCallPat "exec(".data, "command-injection", "high")]

structure SecurityReport where
  secrets : List String
  vulnerabilities : List Vulnerability
deriving DecidableEq

def analyzeSecurity (files : List (String × String)) : SecurityReport :=
  files.foldl
    (fun rep fc =>
      let rep1 :=
        if fileHasSecret fc.2 then { rep with secrets := rep.secrets ++ [fc.1] } else rep
      { rep1 with
        vulnerabilities := rep1.vulnerabilities ++
          vulnPatterns.foldl
            (fun vs p =>
              if p.1 fc.2.data then
                vs ++ [⟨fc.1, p.2.1, p.2.2, "Potential " ++ p.2.1 ++ " vulnerability detected"⟩]
              else vs)
            [] })
    ⟨[], []⟩

/-- C3: evaluating the secret scan at the inputs of the claim. The sample
text with a space before the equals sign matches none of the patterns, so
the file carrying it is not flagged; removing the space makes the first
pattern match; a file with no matching content is not flagged. -/
theorem gitC3_evaluation :
    fileHasSecret "api_key = \"abcd1234\"" = false ∧
    (analyzeSecurity [("config.ts", "api_key = \"abcd1234\"")]).secrets = [] ∧
    fileHasSecret "api_key=\"abcd1234\"" = true ∧
    (analyzeSecurity [("a.ts", "api_key=\"abcd1234\""), ("clean.ts", "no secrets here")]).secrets = ["a.ts"] := by
  refine ⟨by decide, by decide, by decide, by decide⟩

/-
calculateFunctionComplexity, gitIntegration.ts lines 425-441. Each factor
regex carries no global flag, so String.match returns at most one match
(the patterns have no capture groups, hence an array of length one), and
matches.length times the weight contributes the weight at most once per
factor. The keyword factors are keyword, optional whitespace, a required
opening paren or brace; the logical factor is the two-character pipe-pipe
or ampersand-ampersand literal; the ternary factor is a question mark with
a colon later on the same line, the dot class excluding line terminators.
-/

def matchIf : List Char → Bool := matchKwClose "if".data '('

def matchElse : List Char → Bool := matchKwClose "else".data lbrace

def matchFor : List Char → Bool := matchKwClose "for".data '('

def matchWhile : List Char → Bool := matchKwClose "while".data '('

def matchCatch : List Char → Bool := matchKwClose "catch".data '('

def matchSwitch : List Char → Bool := matchKwClose "switch".data '('

def matchAndOr (l : List Char) : Bool :=
  containsSub ['|', '|'] l || containsSub ['&', '&'] l

def matchTernary : List Char → Bool
  | [] => false
  | c :: rest => (c == '?' && seekCharSameLine ':' rest) || matchTernary rest

/-- Length of the singleton match array when a factor regex hits, zero when
it misses: the value of matches.length in the source reduce. -/
def factorCount (m : List Char → Bool) (l : List Char) : Nat :=
  cond (m l) 1 0

def complexityFactors : List ((List Char → Bool) × ℚ) :=
  [(matchIf, 1), (matchElse, 1), (matchFor, 2), (matchWhile, 2),
   (matchCatch, 1), (matchSwitch, 1), (matchAndOr, 0.5), (matchTernary, 0.5)]

def calculateFunctionComplexity (code : String) : ℚ :=
  complexityFactors.foldl (fun cx f => cx + (factorCount f.1 code.data : ℚ) * f.2) 1

theorem lpre_append (p l t : List Char) (h : lpre p l = true) : lpre p (l ++ t) = true := by
  induction p generalizing l with
  | nil => rfl
  | cons x xs ih =>
    cases l with
    | nil => simp [lpre] at h
    | cons c cs =>
      simp only [lpre, Bool.and_eq_true] at h ⊢
      exact ⟨h.1, ih cs h.2⟩

theorem lpre_length_le (p l : List Char) (h : lpre p l = true) : p.length ≤ l.length := by
  induction p generalizing l with
  | nil => simp
  | cons x xs ih =>
    cases l with
    | nil => simp [lpre] at h
    | cons c cs =>
      simp only [lpre, Bool.and_eq_true] at h
      simpa using ih cs h.2

theorem drop_append_of_lpre (p l t : List Char) (h : lpre p l = true) :
    (l ++ t).drop p.length = l.drop p.length ++ t :=
  List.drop_append_of_le_length (lpre_length_le p l h)

theorem afterKw_append (cl : Char) (l t : List Char) (h : afterKw cl l = true) :
    afterKw cl (l ++ t) = true := by
  induction l with
  | nil => simp [afterKw] at h
  | cons c cs ih =>
    simp only [afterKw] at h ⊢
    by_cases hc : (c == cl) = true
    · simp [hc]
    · simp only [hc, if_false] at h ⊢
      by_cases hw : isWsp c = true
      · simp only [hw, if_true] at h ⊢
        exact ih h
      · simp [hw] at h

theorem matchKwClose_append_right (kw : List Char) (cl : Char) (s t : List Char)
    (h : matchKwClose kw cl s = true) : matchKwClose kw cl (s ++ t) = true := by
  induction s with
  | nil => simp [matchKwClose] at h
  | cons c cs ih =>
    simp only [matchKwClose, Bool.or_eq_true, Bool.and_eq_true] at h
    have hgoal : matchKwClose kw cl ((c :: cs) ++ t) =
        (lpre kw ((c :: cs) ++ t) && afterKw cl (((c :: cs) ++ t).drop kw.length)
          || matchKwClose kw cl (cs ++ t)) := rfl
    rw [hgoal, Bool.or_eq_true, Bool.and_eq_true]
    rcases h with ⟨h1, h2⟩ | h
    · left
      refine ⟨lpre_append kw (c :: cs) t h1, ?_⟩
      rw [drop_append_of_lpre kw (c :: cs) t h1]
      exact afterKw_append cl _ t h2
    · right
      exact ih h

theorem matchKwClose_append_left (kw : List Char) (cl : Char) (s t : List Char)
    (h : matchKwClose kw cl t = true) : matchKwClose kw cl (s ++ t) = true := by
  induction s with
  | nil => simpa using h
  | cons c cs ih =>
    simp only [List.cons_append, matchKwClose, Bool.or_eq_true]
    right
    exact ih

theorem containsSub_append_right (pat s t : List Char) (h : containsSub pat s = true) :
    containsSub pat (s ++ t) = true := by
  induction s with
  | nil =>
    simp only [containsSub, List.isEmpty_eq_true] at h
    subst h
    cases t with
    | nil => rfl
    | cons c cs => simp [containsSub, lpre]
  | cons c cs ih =>
    simp only [containsSub, Bool.or_eq_true] at h ⊢
    rcases h with h | h
    · exact Or.inl (lpre_append _ _ _ h)
    · exact Or.inr (ih h)

theorem seekCharSameLine_append (ch : Char) (l t : List Char)
    (h : seekCharSameLine ch l = true) : seekCharSameLine ch (l ++ t) = true := by
  induction l with
  | nil => simp [seekCharSameLine] at h
  | cons c cs ih =>
    simp only [seekCharSameLine] at h ⊢
    by_cases hc : (c == ch) = true
    · simp [hc]
    · simp only [hc, if_false] at h ⊢
      by_cases hn : (c == '\n' || c == '\r' || c == Char.ofNat 8232 || c == Char.ofNat 8233) = true
      · simp [hn] at h
      · simp only [hn, if_false] at h ⊢
        exact ih h

theorem matchTernary_append_right (s t : List Char) (h : matchTernary s = true) :
    matchTernary (s ++ t) = true := by
  induction s with
  | nil => simp [matchTernary] at h
  | cons c cs ih =>
    simp only [matchTernary, Bool.or_eq_true, Bool.and_eq_true] at h ⊢
    rcases h with ⟨h1, h2⟩ | h
    · exact Or.inl ⟨h1, seekCharSameLine_append ':' cs t h2⟩
    · exact Or.inr (ih h)

theorem matchAndOr_append_right (s t : List Char) (h : matchAndOr s = true) :
    matchAndOr (s ++ t) = true := by
  simp only [matchAndOr, Bool.or_eq_true] at h ⊢
  rcases h with h | h
  · exact Or.inl (containsSub_append_right _ s t h)
  · exact Or.inr (containsSub_append_right _ s t h)

theorem lpre_append_left_of_le (p l t : List Char) (h : lpre p (l ++ t) = true)
    (hlen : p.length ≤ l.length) : lpre p l = true := by
  induction p generalizing l with
  | nil => rfl
  | cons x xs ih =>
    cases l with
    | nil => simp at hlen
    | cons c cs =>
      simp only [List.cons_append, lpre, Bool.and_eq_true] at h ⊢
      refine ⟨h.1, ih cs h.2 ?_⟩
      simp only [List.length_cons] at hlen
      omega

theorem lpre_append_drop (p l t : List Char) (h : lpre p (l ++ t) = true)
    (hlen : l.length < p.length) : lpre (p.drop l.length) t = true := by
  induction l generalizing p with
  | nil => simpa using h
  | cons c cs ih =>
    cases p with
    | nil => simp at hlen
    | cons x xs =>
      simp only [List.cons_append, lpre, Bool.and_eq_true] at h
      have hrec := ih xs h.2 (by simp only [List.length_cons] at hlen; omega)
      exact hrec

theorem afterKw_append_rev (cl : Char) (t : List Char) (hA : afterKw cl t = false)
    (l : List Char) (h : afterKw cl (l ++ t) = true) : afterKw cl l = true := by
  induction l with
  | nil =>
    rw [List.nil_append, hA] at h
    exact absurd h (by simp)
  | cons c cs ih =>
    simp only [List.cons_append, afterKw] at h ⊢
    by_cases hc : (c == cl) = true
    · simp [hc]
    · simp only [hc, if_false] at h ⊢
      by_cases hw : isWsp c = true
      · simp only [hw, if_true] at h ⊢
        exact ih h
      · simp only [hw, if_false] at h
        exact absurd h (by simp)

/-- Converts the decidable bounded check over all proper keyword suffixes
into the span hypothesis of the reverse append lemmas: no nonempty proper
suffix of the pattern is a prefix of the appended tail. -/
theorem spanFalse_of_all (kw t : List Char)
    (h : (List.range kw.length).all (fun n => decide (n = 0) || !(lpre (kw.drop n) t)) = true) :
    ∀ n, 1 ≤ n → n < kw.length → lpre (kw.drop n) t = false := by
  intro n h1 h2
  have hn : (decide (n = 0) || !(lpre (kw.drop n) t)) = true :=
    List.all_eq_true.mp h n (List.mem_range.mpr h2)
  cases hl : lpre (kw.drop n) t with
  | false => rfl
  | true =>
    exfalso
    rw [hl] at hn
    simp only [Bool.not_true, Bool.or_false, decide_eq_true_eq] at hn
    omega

theorem matchKwClose_append_rev (kw : List Char) (cl : Char) (t : List Char)
    (hT : matchKwClose kw cl t = false)
    (hA : afterKw cl t = false)
    (hspan : ∀ n, 1 ≤ n → n < kw.length → lpre (kw.drop n) t = false)
    (s : List Char) (h : matchKwClose kw cl (s ++ t) = true) :
    matchKwClose kw cl s = true := by
  induction s with
  | nil =>
    rw [List.nil_append, hT] at h
    exact absurd h (by simp)
  | cons c cs ih =>
    have hg : matchKwClose kw cl ((c :: cs) ++ t) =
        (lpre kw ((c :: cs) ++ t) && afterKw cl (((c :: cs) ++ t).drop kw.length)
          || matchKwClose kw cl (cs ++ t)) := rfl
    rw [hg, Bool.or_eq_true, Bool.and_eq_true] at h
    have hg2 : matchKwClose kw cl (c :: cs) =
        (lpre kw (c :: cs) && afterKw cl ((c :: cs).drop kw.length)
          || matchKwClose kw cl cs) := rfl
    rw [hg2, Bool.or_eq_true, Bool.and_eq_true]
    rcases h with ⟨h1, h2⟩ | h
    · by_cases hlen : kw.length ≤ (c :: cs).length
      · left
        refine ⟨lpre_append_left_of_le kw (c :: cs) t h1 hlen, ?_⟩
        rw [List.drop_append_of_le_length hlen] at h2
        exact afterKw_append_rev cl t hA _ h2
      · exfalso
        push_neg at hlen
        have hdrop := lpre_append_drop kw (c :: cs) t h1 hlen
        have hf := hspan (c :: cs).length (by simp only [List.length_cons]; omega) hlen
        rw [hf] at hdrop
        exact absurd hdrop (by simp)
    · right
      exact ih h

/-- A keyword factor neither gains nor loses an occurrence from appending a
tail that contains no occurrence, cannot complete the part after the
keyword, and extends no proper keyword suffix. -/
theorem matchKwClose_append_eq (kw : List Char) (cl : Char) (t : List Char)
    (hT : matchKwClose kw cl t = false)
    (hA : afterKw cl t = false)
    (hspan : ∀ n, 1 ≤ n → n < kw.length → lpre (kw.drop n) t = false)
    (s : List Char) :
    matchKwClose kw cl (s ++ t) = matchKwClose kw cl s := by
  cases hs : matchKwClose kw cl s with
  | true => exact matchKwClose_append_right kw cl s t hs
  | false =>
    cases hst : matchKwClose kw cl (s ++ t) with
    | false => rfl
    | true =>
      exact absurd (matchKwClose_append_rev kw cl t hT hA hspan s hst) (by simp [hs])

theorem containsSub_append_rev (pat t : List Char)
    (hT : containsSub pat t = false)
    (hspan : ∀ n, 1 ≤ n → n < pat.length → lpre (pat.drop n) t = false)
    (s : List Char) (h : containsSub pat (s ++ t) = true) :
    containsSub pat s = true := by
  induction s with
  | nil =>
    rw [List.nil_append, hT] at h
    exact absurd h (by simp)
  | cons c cs ih =>
    have hg : containsSub pat ((c :: cs) ++ t) =
        (lpre pat ((c :: cs) ++ t) || containsSub pat (cs ++ t)) := rfl
    rw [hg, Bool.or_eq_true] at h
    have hg2 : containsSub pat (c :: cs) = (lpre pat (c :: cs) || containsSub pat cs) := rfl
    rw [hg2, Bool.or_eq_true]
    rcases h with h1 | h
    · by_cases hlen : pat.length ≤ (c :: cs).length
      · exact Or.inl (lpre_append_left_of_le pat (c :: cs) t h1 hlen)
      · exfalso
        push_neg at hlen
        have hdrop := lpre_append_drop pat (c :: cs) t h1 hlen
        have hf := hspan (c :: cs).length (by simp only [List.length_cons]; omega) hlen
        rw [hf] at hdrop
        exact absurd hdrop (by simp)
    · exact Or.inr (ih h)

theorem containsSub_append_eq (pat t : List Char)
    (hT : containsSub pat t = false)
    (hspan : ∀ n, 1 ≤ n → n < pat.length → lpre (pat.drop n) t = false)
    (s : List Char) :
    containsSub pat (s ++ t) = containsSub pat s := by
  cases hs : containsSub pat s with
  | true => exact containsSub_append_right pat s t hs
  | false =>
    cases hst : containsSub pat (s ++ t) with
    | false => rfl
    | true =>
      exact absurd (containsSub_append_rev pat t hT hspan s hst) (by simp [hs])

theorem seekCharSameLine_append_rev (ch : Char) (t : List Char)
    (hT : seekCharSameLine ch t = false)
    (l : List Char) (h : seekCharSameLine ch (l ++ t) = true) :
    seekCharSameLine ch l = true := by
  induction l with
  | nil =>
    rw [List.nil_append, hT] at h
    exact absurd h (by simp)
  | cons c cs ih =>
    simp only [List.cons_append, seekCharSameLine] at h ⊢
    by_cases hc : (c == ch) = true
    · simp [hc]
    · simp only [hc, if_false] at h ⊢
      by_cases hn : (c == '\n' || c == '\r' || c == Char.ofNat 8232 || c == Char.ofNat 8233) = true
      · simp only [hn, if_true] at h
        exact absurd h (by simp)
      · simp only [hn, if_false] at h ⊢
        exact ih h

theorem matchTernary_append_rev (t : List Char)
    (hT : matchTernary t = false)
    (hseek : seekCharSameLine ':' t = false)
    (s : List Char) (h : matchTernary (s ++ t) = true) :
    matchTernary s = true := by
  induction s with
  | nil =>
    rw [List.nil_append, hT] at h
    exact absurd h (by simp)
  | cons c cs ih =>
    simp only [List.cons_append, matchTernary, Bool.or_eq_true, Bool.and_eq_true] at h ⊢
    rcases h with ⟨h1, h2⟩ | h
    · exact Or.inl ⟨h1, seekCharSameLine_append_rev ':' t hseek cs h2⟩
    · exact Or.inr (ih h)

theorem matchTernary_append_eq (t : List Char)
    (hT : matchTernary t = false)
    (hseek : seekCharSameLine ':' t = false)
    (s : List Char) :
    matchTernary (s ++ t) = matchTernary s := by
  cases hs : matchTernary s with
  | true => exact matchTernary_append_right s t hs
  | false =>
    cases hst : matchTernary (s ++ t) with
    | false => rfl
    | true =>
      exact absurd (matchTernary_append_rev t hT hseek s hst) (by simp [hs])

theorem factorCount_le (m : List Char → Bool) (s s' : List Char)
    (h : m s = true → m s' = true) : factorCount m s ≤ factorCount m s' := by
  unfold factorCount
  cases hm : m s with
  | false => cases m s' <;> simp
  | true => rw [h hm]

theorem calculateFunctionComplexity_eval (code : String) :
    calculateFunctionComplexity code =
      1 + (factorCount matchIf code.data : ℚ) * 1 + (factorCount matchElse code.data : ℚ) * 1 +
        (factorCount matchFor code.data : ℚ) * 2 + (factorCount matchWhile code.data : ℚ) * 2 +
        (factorCount matchCatch code.data : ℚ) * 1 + (factorCount matchSwitch code.data : ℚ) * 1 +
        (factorCount matchAndOr code.data : ℚ) * 0.5 + (factorCount matchTernary code.data : ℚ) * 0.5 := by
  rfl

/-- C2 counterexample: a body with one if construct scores 2, and appending
a second if construct leaves the score at 2 — each factor regex lacks the
global flag, so occurrences beyond the first are not counted and the score
is not strictly monotonic in the number of if constructs. -/
theorem gitC2_counterexample :
    calculateFunctionComplexity "if (x)" = 2 ∧
    calculateFunctionComplexity ("if (x)" ++ "if (") = 2 ∧
    ¬ (calculateFunctionComplexity "if (x)" <
        calculateFunctionComplexity ("if (x)" ++ "if (")) := by
  have hA : calculateFunctionComplexity "if (x)" = 2 := by
    rw [calculateFunctionComplexity_eval]
    have h1 : factorCount matchIf "if (x)".data = 1 := by decide
    have h2 : factorCount matchElse "if (x)".data = 0 := by decide
    have h3 : factorCount matchFor "if (x)".data = 0 := by decide
    have h4 : factorCount matchWhile "if (x)".data = 0 := by decide
    have h5 : factorCount matchCatch "if (x)".data = 0 := by decide
    have h6 : factorCount matchSwitch "if (x)".data = 0 := by decide
    have h7 : factorCount matchAndOr "if (x)".data = 0 := by decide
    have h8 : factorCount matchTernary "if (x)".data = 0 := by decide
    rw [h1, h2, h3, h4, h5, h6, h7, h8]
    norm_num
  have hB : calculateFunctionComplexity ("if (x)" ++ "if (") = 2 := by
    rw [calculateFunctionComplexity_eval]
    have h1 : factorCount matchIf ("if (x)" ++ "if (").data = 1 := by decide
    have h2 : factorCount matchElse ("if (x)" ++ "if (").data = 0 := by decide
    have h3 : factorCount matchFor ("if (x)" ++ "if (").data = 0 := by decide
    have h4 : factorCount matchWhile ("if (x)" ++ "if (").data = 0 := by decide
    have h5 : factorCount matchCatch ("if (x)" ++ "if (").data = 0 := by decide
    have h6 : factorCount matchSwitch ("if (x)" ++ "if (").data = 0 := by decide
    have h7 : factorCount matchAndOr ("if (x)" ++ "if (").data = 0 := by decide
    have h8 : factorCount matchTernary ("if (x)" ++ "if (").data = 0 := by decide
    rw [h1, h2, h3, h4, h5, h6, h7, h8]
    norm_num
  refine ⟨hA, hB, ?_⟩
  rw [hA, hB]
  norm_num

/-- C2 amended: the score is 1 plus the weighted count of the factor
patterns present, each counted at most once; appending one more if
construct strictly increases the score exactly when the body contained no
if pattern yet, and leaves the score unchanged when one is already
present, since the other factor patterns can neither gain nor lose an
occurrence from the appended characters: the tail holds no occurrence of
any of them, completes none of their bracket parts, and extends no proper
suffix of their keywords. -/
theorem gitC2_amended (body : String) :
    (calculateFunctionComplexity body < calculateFunctionComplexity (body ++ "if (") ↔
      matchIf body.data = false) ∧
    (matchIf body.data = true →
      calculateFunctionComplexity (body ++ "if (") = calculateFunctionComplexity body) := by
  have hdata : (body ++ "if (").data = body.data ++ "if (".data := strDataAppend body "if ("
  have hif : matchIf (body.data ++ "if (".data) = true :=
    matchKwClose_append_left "if".data '(' body.data ("if (".data) (by decide)
  have e2 : factorCount matchIf (body.data ++ "if (".data) = 1 := by simp [factorCount, hif]
  have mElse : matchElse (body.data ++ "if (".data) = matchElse body.data :=
    matchKwClose_append_eq "else".data lbrace ("if (".data) (by decide) (by decide)
      (spanFalse_of_all "else".data ("if (".data) (by decide)) body.data
  have mFor : matchFor (body.data ++ "if (".data) = matchFor body.data :=
    matchKwClose_append_eq "for".data '(' ("if (".data) (by decide) (by decide)
      (spanFalse_of_all "for".data ("if (".data) (by decide)) body.data
  have mWhile : matchWhile (body.data ++ "if (".data) = matchWhile body.data :=
    matchKwClose_append_eq "while".data '(' ("if (".data) (by decide) (by decide)
      (spanFalse_of_all "while".data ("if (".data) (by decide)) body.data
  have mCatch : matchCatch (body.data ++ "if (".data) = matchCatch body.data :=
    matchKwClose_append_eq "catch".data '(' ("if (".data) (by decide) (by decide)
      (spanFalse_of_all "catch".data ("if (".data) (by decide)) body.data
  have mSwitch : matchSwitch (body.data ++ "if (".data) = matchSwitch body.data :=
    matchKwClose_append_eq "switch".data '(' ("if (".data) (by decide) (by decide)
      (spanFalse_of_all "switch".data ("if (".data) (by decide)) body.data
  have mAndOr : matchAndOr (body.data ++ "if (".data) = matchAndOr body.data := by
    unfold matchAndOr
    rw [containsSub_append_eq ['|', '|'] ("if (".data) (by decide)
          (spanFalse_of_all ['|', '|'] ("if (".data) (by decide)) body.data,
        containsSub_append_eq ['&', '&'] ("if (".data) (by decide)
          (spanFalse_of_all ['&', '&'] ("if (".data) (by decide)) body.data]
  have mTern : matchTernary (body.data ++ "if (".data) = matchTernary body.data :=
    matchTernary_append_eq ("if (".data) (by decide) (by decide) body.data
  have f2 : factorCount matchElse (body.data ++ "if (".data) = factorCount matchElse body.data := by
    unfold factorCount
    rw [mElse]
  have f3 : factorCount matchFor (body.data ++ "if (".data) = factorCount matchFor body.data := by
    unfold factorCount
    rw [mFor]
  have f4 : factorCount matchWhile (body.data ++ "if (".data) = factorCount matchWhile body.data := by
    unfold factorCount
    rw [mWhile]
  have f5 : factorCount matchCatch (body.data ++ "if (".data) = factorCount matchCatch body.data := by
    unfold factorCount
    rw [mCatch]
  have f6 : factorCount matchSwitch (body.data ++ "if (".data) = factorCount matchSwitch body.data := by
    unfold factorCount
    rw [mSwitch]
  have f7 : factorCount matchAndOr (body.data ++ "if (".data) = factorCount matchAndOr body.data := by
    unfold factorCount
    rw [mAndOr]
  have f8 : factorCount matchTernary (body.data ++ "if (".data) = factorCount matchTernary body.data := by
    unfold factorCount
    rw [mTern]
  have hEq : matchIf body.data = true →
      calculateFunctionComplexity (body ++ "if (") = calculateFunctionComplexity body := by
    intro h
    have e1 : factorCount matchIf body.data = 1 := by simp [factorCount, h]
    rw [calculateFunctionComplexity_eval, calculateFunctionComplexity_eval, hdata, e1, e2,
        f2, f3, f4, f5, f6, f7, f8]
  have hLt : matchIf body.data = false →
      calculateFunctionComplexity body < calculateFunctionComplexity (body ++ "if (") := by
    intro h
    have e1 : factorCount matchIf body.data = 0 := by simp [factorCount, h]
    rw [calculateFunctionComplexity_eval, calculateFunctionComplexity_eval, hdata, e1, e2,
        f2, f3, f4, f5, f6, f7, f8]
    push_cast
    linarith
  refine ⟨⟨?_, hLt⟩, hEq⟩
  intro hlt
  cases hmi : matchIf body.data with
  | false => rfl
  | true =>
    exfalso
    rw [hEq hmi] at hlt
    exact lt_irrefl _ hlt

/-- C2 witness: a body with no if construct strictly gains score from an
appended if construct, and a body already containing one keeps its score. -/
theorem gitC2_witness :
    calculateFunctionComplexity "x" < calculateFunctionComplexity ("x" ++ "if (") ∧
    calculateFunctionComplexity ("if (a)" ++ "if (") = calculateFunctionComplexity "if (a)" :=
  ⟨(gitC2_amended "x").1.mpr (by decide), (gitC2_amended "if (a)").2 (by decide)⟩

/-
The context cache, gitIntegration.ts lines 85-127 with the field builders of
lines 129-242. The subcommand stdouts read during a rebuild are collected in
a RepoEnv record; the current time is an explicit Nat of epoch
milliseconds, standing for each call to Date.now (the source calls it twice
per rebuild, for the context field and the cache slot, within the same
instant of the model). The analysis field of the built context is modelled
by its security component, the only analyzer a claim inspects; the
complexity, dependency and code-health analyzers read further subprocess
and filesystem state in the same way and do not influence the caching
behaviour under study.
-/

structure RepoStats where
  commits : Nat
  branches : Nat
  contributors : Nat
  size : Nat
deriving DecidableEq

structure LastCommit where
  hash : String
  author : String
  date : String
  message : String
deriving DecidableEq

structure RepoEnv where
  branchOut : String
  remotesOut : String
  statusOut : String
  lastCommitOut : String
  configOut : String
  commitsOut : String
  branchesOut : String
  contributorsOut : String
  countObjectsOut : String
  trackedFiles : List (String × String)
deriving DecidableEq

/-- getRemotes, lines 136-150: each line matched against the anchored regex
nonspace-run, space-run, nonspace-run; hits assign url to name, later
assignments overwriting earlier ones. -/
def remoteStep (m : List (String × String)) (line : List Char) : List (String × String) :=
  let w1 := line.takeWhile (fun c => !(isWsp c))
  let r1 := line.dropWhile (fun c => !(isWsp c))
  let ws := r1.takeWhile isWsp
  let w2 := (r1.dropWhile isWsp).takeWhile (fun c => !(isWsp c))
  if w1 ≠ [] ∧ ws ≠ [] ∧ w2 ≠ [] then assocSet (String.mk w1) (String.mk w2) m else m

def getRemotes (stdout : String) : List (String × String) :=
  (splitOnCh '\n' stdout.data).foldl remoteStep []

/-- getGitConfig, lines 197-211: each line split on every equals sign; the
first two pieces are taken as key and value and stored trimmed when both
are nonempty. -/
def configStep (m : List (String × String)) (line : List Char) : List (String × String) :=
  let parts := splitOnCh '=' line
  let key := parts.getD 0 []
  match parts.get? 1 with
  | some v =>
    if key ≠ [] ∧ v ≠ [] then assocSet (String.mk (trimLC key)) (String.mk (trimLC v)) m
    else m
  | none => m

def getGitConfig (stdout : String) : List (String × String) :=
  (splitOnCh '\n' stdout.data).foldl configStep []

/-- getLastCommit, lines 182-195: the four newline-separated fields of the
formatted log output; a missing field (undefined in the source) is
modelled as the empty string. -/
def getLastCommit (stdout : String) : LastCommit :=
  let ls := splitOnCh '\n' stdout.data
  ⟨String.mk (ls.getD 0 []), String.mk (ls.getD 1 []), String.mk (ls.getD 2 []),
   String.mk (ls.getD 3 [])⟩

/-- getRepoSize, lines 235-242: the line starting with the size-pack key, its
part after the colon trimmed, parsed and scaled by 1024; zero when absent. -/
def getRepoSize (stdout : String) : Nat :=
  match (splitOnCh '\n' stdout.data).find? (fun l => lpre "size-pack:".data l) with
  | some l => jsParseIntNat (trimLC ((splitOnCh ':' l).getD 1 [])) * 1024
  | none => 0

/-- getRepoStats, lines 213-233. -/
def getRepoStats (env : RepoEnv) : RepoStats :=
  ⟨jsParseIntNat (trimLC env.commitsOut.data),
   jsParseIntNat (trimLC env.branchesOut.data),
   jsParseIntNat (trimLC env.contributorsOut.data),
   getRepoSize env.countObjectsOut⟩

structure RepoContext where
  branch : String
  remotes : List (String × String)
  status : GitStatus
  lastCommit : LastCommit
  config : List (String × String)
  stats : RepoStats
  security : SecurityReport
  timestamp : Nat
deriving DecidableEq

def buildRepoContext (env : RepoEnv) (now : Nat) : RepoContext :=
  ⟨jsTrim env.branchOut, getRemotes env.remotesOut, getStatus env.statusOut,
   getLastCommit env.lastCommitOut, getGitConfig env.configOut, getRepoStats env,
   analyzeSecurity env.trackedFiles, now⟩

structure CacheEntry where
  data : RepoContext
  timestamp : Nat
deriving DecidableEq

/-- The five-minute time-to-live of line 87, in milliseconds. -/
def CACHE_DURATION : Nat := 5 * 60 * 1000

/-- getRepoContext, lines 102-127: with a cached entry whose age is under
the time-to-live and no forced refresh, return the cached data and leave
the slot unchanged; otherwise rebuild, store the fresh entry and return it.
The age test uses truncated Nat subtraction, which agrees with the
JavaScript comparison whenever the clock is monotone and is also a cache
hit when the stored stamp exceeds the current time, as the negative
JavaScript difference is below the time-to-live as well. -/
def getRepoContext (env : RepoEnv) (forceRefresh : Bool) (now : Nat)
    (cache : Option CacheEntry) : RepoContext × Option CacheEntry :=
  match cache with
  | some e =>
    if forceRefresh = false ∧ now - e.timestamp < CACHE_DURATION then (e.data, some e)
    else
      let ctx := buildRepoContext env now
      (ctx, some ⟨ctx, now⟩)
  | none =>
    let ctx := buildRepoContext env now
    (ctx, some ⟨ctx, now⟩)

/-- An environment of empty subcommand outputs, for concrete evaluation. -/
def env0 : RepoEnv := ⟨"main", "", "", "", "", "", "", "", "", []⟩

theorem getRepoContext_hit (env : RepoEnv) (now : Nat) (e : CacheEntry)
    (h : now - e.timestamp < CACHE_DURATION) :
    getRepoContext env false now (some e) = (e.data, some e) := by
  show (if false = false ∧ now - e.timestamp < CACHE_DURATION then (e.data, some e)
        else (buildRepoContext env now, some ⟨buildRepoContext env now, now⟩)) =
      (e.data, some e)
  rw [if_pos ⟨rfl, h⟩]

theorem getRepoContext_miss (env : RepoEnv) (force : Bool) (now : Nat) (e : CacheEntry)
    (h : ¬ (force = false ∧ now - e.timestamp < CACHE_DURATION)) :
    getRepoContext env force now (some e) =
      (buildRepoContext env now, some ⟨buildRepoContext env now, now⟩) := by
  show (if force = false ∧ now - e.timestamp < CACHE_DURATION then (e.data, some e)
        else (buildRepoContext env now, some ⟨buildRepoContext env now, now⟩)) =
      (buildRepoContext env now, some ⟨buildRepoContext env now, now⟩)
  rw [if_neg h]

theorem getRepoContext_entry_data (env : RepoEnv) (f : Bool) (now : Nat)
    (st : Option CacheEntry) (e : CacheEntry)
    (h : (getRepoContext env f now st).2 = some e) :
    e.data = (getRepoContext env f now st).1 := by
  cases st with
  | none =>
    simp only [getRepoContext, Option.some.injEq] at h
    simp [getRepoContext, ← h]
  | some e0 =>
    by_cases hc : f = false ∧ now - e0.timestamp < CACHE_DURATION
    · obtain ⟨hf, hc2⟩ := hc
      subst hf
      rw [getRepoContext_hit env now e0 hc2] at h ⊢
      simp only [Option.some.injEq] at h
      rw [← h]
    · rw [getRepoContext_miss env f now e0 hc] at h ⊢
      simp only [Option.some.injEq] at h
      rw [← h]

/-- C4 counterexample: a forced refresh in the same millisecond as the
cached build returns a context whose timestamp equals the cached one, not a
strictly greater one. -/
theorem gitC4_counterexample :
    (getRepoContext env0 false 100 none).2 = some ⟨buildRepoContext env0 100, 100⟩ ∧
    (getRepoContext env0 true 100 (getRepoContext env0 false 100 none).2).1.timestamp = 100 ∧
    ¬ (100 < (getRepoContext env0 true 100 (getRepoContext env0 false 100 none).2).1.timestamp) := by
  refine ⟨rfl, rfl, by decide⟩

/-- C4 amended: a second unforced call while the cached age is under the
five-minute time-to-live returns exactly the context and slot of the first
call; a rebuild (forced, or after expiry) stamps the current time, which is
at least the cached stamp under a monotone clock, and strictly exceeds it
whenever the time-to-live has elapsed — equality is possible for a forced
refresh within the same millisecond. -/
theorem gitC4_amended :
    (∀ (env : RepoEnv) (t1 t2 : Nat) (st : Option CacheEntry) (e1 : CacheEntry),
      (getRepoContext env false t1 st).2 = some e1 →
      t2 - e1.timestamp < CACHE_DURATION →
      getRepoContext env false t2 (getRepoContext env false t1 st).2 =
        ((getRepoContext env false t1 st).1, (getRepoContext env false t1 st).2)) ∧
    (∀ (env : RepoEnv) (force : Bool) (now : Nat) (e : CacheEntry),
      e.timestamp ≤ now →
      (force = true ∨ CACHE_DURATION ≤ now - e.timestamp) →
      (getRepoContext env force now (some e)).1.timestamp = now ∧
      e.timestamp ≤ (getRepoContext env force now (some e)).1.timestamp ∧
      (CACHE_DURATION ≤ now - e.timestamp →
        e.timestamp < (getRepoContext env force now (some e)).1.timestamp)) := by
  constructor
  · intro env t1 t2 st e1 h1 h2
    have hdata : e1.data = (getRepoContext env false t1 st).1 :=
      getRepoContext_entry_data env false t1 st e1 h1
    rw [h1, getRepoContext_hit env t2 e1 h2, hdata]
  · intro env force now e hts hcase
    have hmiss : ¬ (force = false ∧ now - e.timestamp < CACHE_DURATION) := by
      rcases hcase with hf | hd
      · intro hc
        rw [hf] at hc
        exact absurd hc.1 (by simp)
      · intro hc
        omega
    rw [getRepoContext_miss env force now e hmiss]
    refine ⟨rfl, hts, ?_⟩
    intro hd
    show e.timestamp < now
    have h0 : 0 < CACHE_DURATION := by decide
    omega

/-- C4 witness: after the time-to-live has elapsed, an unforced call
rebuilds and stamps a strictly newer time. -/
theorem gitC4_witness :
    (getRepoContext env0 false 300000 (some ⟨buildRepoContext env0 0, 0⟩)).1.timestamp = 300000 ∧
    0 < (getRepoContext env0 false 300000 (some ⟨buildRepoContext env0 0, 0⟩)).1.timestamp := by
  have h := gitC4_amended.2 env0 false 300000 ⟨buildRepoContext env0 0, 0⟩
    (by decide) (Or.inr (by decide))
  exact ⟨h.1, h.2.2 (by decide)⟩
